import Mathlib

/-!
Verification of the sherlock-claude repository's core contracts.

This development gives a shallow embedding, over `List Char` and plain
inductive types, of the deterministic parts of the repository:

* `lib/sherlock_claude/utils.py`: the JSON-fragment extractor
  (`eval_json`, `ret_json`) and the heuristic repair pass (`fix_json`,
  a pipeline of four regex substitutions);
* `lib/sherlock_claude/claude_bot.py`: the retry controllers
  (`get_retry_simple_response`, `_post_response`);
* `lib/sherlock_claude/referee.py`: clue ranking and serving
  (`provide_best_clue`), action classification (`best_choice`) and
  answer scoring (`evaluate_answer`);
* `lib/sherlock_claude/investigator.py`: newspaper-clue deduplication
  (`process_newspapers`, `_is_new_clue`).

LLM calls and HTTP responses are modelled as oracles (functions from the
attempt index, or from the candidate being scored, to the reply), so the
theorems quantify over every possible sequence of model outputs.
Python exceptions are modelled with `Option`/`Except`: `none` at the point
the source raises.  Regex substitutions are embedded as executable
character-list scanners implementing the leftmost-match semantics of the
concrete patterns appearing in the source.
-/

namespace SherlockClaude

/-! ### Character classes

`pyWs` is Python's regex `\s` class (space, tab, newline, carriage
return, form feed, vertical tab); `jsonWs` is the whitespace the Python
`json` module accepts between tokens (space, tab, newline, carriage
return). -/

def pyWs (c : Char) : Bool :=
  c = ' ' || c = '\t' || c = '\n' || c = '\r' || c = '\x0b' || c = '\x0c'

def jsonWs (c : Char) : Bool :=
  c = ' ' || c = '\t' || c = '\n' || c = '\r'

def isDigitCh (c : Char) : Bool :=
  '0' ≤ c && c ≤ '9'

/-! ### JSON values and a model of Python `json.loads`

`JVal` models the JSON values the repository manipulates.  Numbers are
restricted to integers: every numeric literal the embedded code paths
parse is an integer (the repair pass `fix_json` turns all values into
quoted strings anyway, see below).  A fuel-indexed recursive-descent
parser models `json.loads`; `none` models `json.JSONDecodeError`. -/

inductive JVal where
  | jnull : JVal
  | jbool : Bool → JVal
  | jnum : Int → JVal
  | jstr : List Char → JVal
  | jarr : List JVal → JVal
  | jobj : List (List Char × JVal) → JVal

/-- String-body parser: consumes characters after an opening quote up to
the closing quote, handling the JSON escape sequences the repository's
data can contain.  Raw control characters are rejected as in Python's
strict mode. -/
def parseStrBody : List Char → Option (List Char × List Char)
  | [] => none
  | '"' :: rest => some ([], rest)
  | '\\' :: e :: rest =>
      (match e with
       | '"' => some '"'
       | '\\' => some '\\'
       | '/' => some '/'
       | 'n' => some '\n'
       | 't' => some '\t'
       | 'r' => some '\r'
       | 'b' => some '\x08'
       | 'f' => some '\x0c'
       | _ => none).bind fun c =>
        (parseStrBody rest).map fun (p : List Char × List Char) => (c :: p.1, p.2)
  | '\\' :: [] => none
  | c :: rest =>
      if c.toNat < 32 then none
      else (parseStrBody rest).map fun p => (c :: p.1, p.2)

/-- Digit-run parser for the integer grammar of JSON: a leading `0` is
not followed by further digits. -/
def parseDigits : List Char → Option (Nat × List Char)
  | [] => none
  | c :: rest =>
      if c = '0' then some (0, rest)
      else if isDigitCh c then
        some (List.foldl (fun a d => a * 10 + (d.toNat - 48))
                (c.toNat - 48) (rest.takeWhile isDigitCh),
              rest.dropWhile isDigitCh)
      else none

/-- Integer parser (optional minus sign, digits).  A following `.`, `e`
or `E` would make the literal a float, which is outside this model and
never produced by the repository's prompts; such input is rejected. -/
def parseIntLit (cs : List Char) : Option (Int × List Char) :=
  match cs with
  | '-' :: rest =>
      (parseDigits rest).bind fun p =>
        match p.2 with
        | '.' :: _ => none
        | 'e' :: _ => none
        | 'E' :: _ => none
        | r => some (-(p.1 : Int), r)
  | _ =>
      (parseDigits cs).bind fun p =>
        match p.2 with
        | '.' :: _ => none
        | 'e' :: _ => none
        | 'E' :: _ => none
        | r => some ((p.1 : Int), r)

mutual

/-- Value parser modelling `json.loads`' recursive descent.  The fuel
argument strictly decreases across the mutual recursion; it is always
instantiated with the input length, which dominates the recursion
depth. -/
def parseVal : Nat → List Char → Option (JVal × List Char)
  | 0, _ => none
  | Nat.succ fuel, cs =>
      match cs.dropWhile jsonWs with
      | [] => none
      | c :: rest =>
          if c = '{' then
            match rest.dropWhile jsonWs with
            | [] => none
            | d :: drest =>
                if d = '}' then some (JVal.jobj [], drest)
                else (parseMembers fuel (d :: drest)).map
                  fun p => (JVal.jobj p.1, p.2)
          else if c = '[' then
            match rest.dropWhile jsonWs with
            | [] => none
            | d :: drest =>
                if d = ']' then some (JVal.jarr [], drest)
                else (parseItems fuel (d :: drest)).map
                  fun p => (JVal.jarr p.1, p.2)
          else if c = '"' then
            (parseStrBody rest).map fun p => (JVal.jstr p.1, p.2)
          else if (c :: rest).take 4 = "true".toList then
            some (JVal.jbool true, (c :: rest).drop 4)
          else if (c :: rest).take 5 = "false".toList then
            some (JVal.jbool false, (c :: rest).drop 5)
          else if (c :: rest).take 4 = "null".toList then
            some (JVal.jnull, (c :: rest).drop 4)
          else
            (parseIntLit (c :: rest)).map fun p => (JVal.jnum p.1, p.2)

/-- Object-member list parser: `"key": value` pairs separated by commas,
terminated by `}`. -/
def parseMembers : Nat → List Char → Option (List (List Char × JVal) × List Char)
  | 0, _ => none
  | Nat.succ fuel, cs =>
      match cs.dropWhile jsonWs with
      | [] => none
      | c :: rest =>
          if c = '"' then
            (parseStrBody rest).bind fun kp =>
              match kp.2.dropWhile jsonWs with
              | [] => none
              | d :: drest =>
                  if d = ':' then
                    (parseVal fuel drest).bind fun vp =>
                      match vp.2.dropWhile jsonWs with
                      | [] => none
                      | e :: erest =>
                          if e = ',' then
                            (parseMembers fuel erest).map fun mp =>
                              ((kp.1, vp.1) :: mp.1, mp.2)
                          else if e = '}' then some ([(kp.1, vp.1)], erest)
                          else none
                  else none
          else none

/-- Array-item list parser. -/
def parseItems : Nat → List Char → Option (List JVal × List Char)
  | 0, _ => none
  | Nat.succ fuel, cs =>
      (parseVal fuel cs).bind fun vp =>
        match vp.2.dropWhile jsonWs with
        | [] => none
        | e :: erest =>
            if e = ',' then
              (parseItems fuel erest).map fun ip => (vp.1 :: ip.1, ip.2)
            else if e = ']' then some ([vp.1], erest)
            else none

end

/-- Model of Python `json.loads`: parse one value, then require only
whitespace to remain ("Extra data" otherwise).  `none` models
`json.JSONDecodeError`. -/
def json_loads (cs : List Char) : Option JVal :=
  match parseVal (cs.length + 1) cs with
  | some (v, rest) => if rest.dropWhile jsonWs = [] then some v else none
  | none => none

/-! ### `fix_json` (utils.py lines 36-61)

The repair pass is a pipeline of four text transformations:

1. `_text.replace('"', '')` — remove every double quote;
2. `_text.replace('\\', '')` — remove every backslash;
3. `regex.sub(r'(.),([^\n])', r'\1\2', _text)` — delete a comma that
   sits between two non-newline characters (leftmost, non-overlapping);
4. `regex.sub(r'(\s*)(\S+)(\s*)(:)(\s*)(.*?)(,\s*\n|\n})', replace_func,
   _text, flags=re.DOTALL)` — re-quote each `key: value` member whose
   value is terminated by `,\s*\n` or `\n}`, collapsing newlines inside
   the value to spaces.

NOTE: between steps 3 and 4 the source executes a live
`import pdb; pdb.set_trace()` — a debugger breakpoint left in the code.
It is modelled here as a no-op (its real effect, suspending the process
or raising `bdb.BdbQuit` in non-interactive runs, is the subject of
claim C4). -/

def remove_quotes (cs : List Char) : List Char :=
  cs.filter (fun c => c ≠ '"')

def remove_backslashes (cs : List Char) : List Char :=
  cs.filter (fun c => c ≠ '\\')

/-- Step 3: leftmost non-overlapping matches of `(.),([^\n])` are
replaced by the two captured characters (`.` does not match a newline
because DOTALL is not set on this substitution). -/
def drop_commas : List Char → List Char
  | c1 :: c2 :: c3 :: rest =>
      if c2 = ',' ∧ c1 ≠ '\n' ∧ c3 ≠ '\n' then
        c1 :: c3 :: drop_commas rest
      else
        c1 :: drop_commas (c2 :: c3 :: rest)
  | c :: rest => c :: drop_commas rest
  | [] => []

/-- `no_newline` helper inside `replace_func`:
`regex.sub(r'\n', ' ', cmd)`. -/
def no_newline (cs : List Char) : List Char :=
  cs.map (fun c => if c = '\n' then ' ' else c)

/-- Split a character list at its last newline: returns the prefix up to
and including that newline, and the suffix after it.  Used to model the
greedy `\s*` before the final `\n` of the terminator `,\s*\n`. -/
def splitAtLastNl : List Char → Option (List Char × List Char)
  | [] => none
  | c :: rest =>
      match splitAtLastNl rest with
      | some (p, s) => some (c :: p, s)
      | none => if c = '\n' then some (['\n'], rest) else none

/-- Terminator matcher for the group `(,\s*\n|\n})` at the head of the
input: returns the consumed characters and the remainder.  For the first
alternative the greedy `\s*` backtracks to the last newline of the
whitespace run after the comma. -/
def term_match : List Char → Option (List Char × List Char)
  | ',' :: rest =>
      (splitAtLastNl (rest.takeWhile pyWs)).map fun p =>
        (',' :: p.1, rest.drop p.1.length)
  | '\n' :: '}' :: rest => some (['\n', '}'], rest)
  | _ => none

/-- Earliest occurrence of the terminator in the input (the lazy `.*?`
expands left to right): returns the value prefix before the terminator,
the terminator's characters, and the remainder. -/
def findTermFrom : List Char → Option (List Char × List Char × List Char)
  | [] => none
  | c :: rest =>
      match term_match (c :: rest) with
      | some (con, r) => some ([], con, r)
      | none =>
          (findTermFrom rest).map fun p => (c :: p.1, p.2.1, p.2.2)

/-- Search for groups 5-7 (`(\s*)(.*?)(,\s*\n|\n})`) after the colon:
the greedy `\s*` is tried longest first (`k` counts the retained
whitespace), and for each choice the lazy `.*?` takes the earliest
terminator.  Returns `(g5, value, terminator, rest)`. -/
def valueSearchGo (w rest0 : List Char) : Nat → Option (List Char × List Char × List Char × List Char)
  | 0 =>
      (findTermFrom (w.drop 0 ++ rest0)).map fun p =>
        (w.take 0, p.1, p.2.1, p.2.2)
  | Nat.succ k' =>
      match findTermFrom (w.drop (k' + 1) ++ rest0) with
      | some (v, con, r) => some (w.take (k' + 1), v, con, r)
      | none => valueSearchGo w rest0 k'

def valueSearch (cs : List Char) : Option (List Char × List Char × List Char × List Char) :=
  let w := cs.takeWhile pyWs
  valueSearchGo w (cs.drop w.length) w.length

/-- The colon positions inside the maximal non-space run `R`, largest
first, each yielding a candidate split `key = R[0..L)`, remainder
`R[L+1..]` (the regex engine backtracks the greedy `\S+` from longest to
shortest; a split is only legal with a nonempty key, `L ≥ 1`). -/
def colonSplitsDesc (r : List Char) : List (List Char × List Char) :=
  ((List.range r.length).filter
    (fun l => 1 ≤ l && decide (r.get? l = some ':'))).reverse.map
    (fun l => (r.take l, r.drop (l + 1)))

/-- All candidate `(key, g3, after-colon)` splits at a non-space
position, in the order the regex engine tries them: first the full run
`R` with the whitespace run `g3` before a following colon, then the
colon positions inside `R` (with empty `g3`), longest key first. -/
def candFirst (r w3 d : List Char) : List (List Char × List Char × List Char) :=
  match d with
  | ':' :: after => [(r, w3, after)]
  | _ => []

def keyCandidates (cs : List Char) : List (List Char × List Char × List Char) :=
  let r := cs.takeWhile (fun c => ¬ pyWs c)
  let afterR := cs.drop r.length
  let w3 := afterR.takeWhile pyWs
  candFirst r w3 (afterR.drop w3.length) ++
    (colonSplitsDesc r).map (fun p => (p.1, [], p.2 ++ afterR))

def firstSomeAux (f : List Char × List Char × List Char →
    Option (List Char × List Char)) :
    List (List Char × List Char × List Char) → Option (List Char × List Char)
  | [] => none
  | c :: rest =>
      match f c with
      | some r => some r
      | none => firstSomeAux f rest

/-- Attempt a match of groups 2-7 at a non-space position: try each key
candidate in engine order, and for the first whose value search succeeds
build `replace_func`'s output
`"key"` ++ g3 ++ `:` ++ g5 ++ `"no_newline(value)"` ++ terminator.
Returns the replacement text and the unconsumed remainder. -/
def matchCore (cs : List Char) : Option (List Char × List Char) :=
  firstSomeAux
    (fun cand =>
      (valueSearch cand.2.2).map fun q =>
        ('"' :: cand.1 ++ '"' :: cand.2.1 ++ ':' :: q.1 ++
           '"' :: no_newline q.2.1 ++ '"' :: q.2.2.1, q.2.2.2))
    (keyCandidates cs)

/-- Step 4 driver: scan left to right; whitespace is emitted verbatim
(it can only ever be the `(\s*)` group 1, which `replace_func` copies
unchanged); at each non-space position try `matchCore`, emit its
replacement and continue after the match, otherwise emit the character.
Fuel is the input length: every step consumes at least one character. -/
def requoteGo : Nat → List Char → List Char
  | 0, cs => cs
  | Nat.succ _, [] => []
  | Nat.succ fuel, c :: rest =>
      if pyWs c then c :: requoteGo fuel rest
      else
        match matchCore (c :: rest) with
        | some (rep, after) => rep ++ requoteGo fuel after
        | none => c :: requoteGo fuel rest

def requote (cs : List Char) : List Char :=
  requoteGo cs.length cs

/-- `fix_json` (utils.py lines 36-61): the four-stage pipeline.  The live
`pdb.set_trace()` between stages 3 and 4 is modelled as a no-op. -/
def fix_json (cs : List Char) : List Char :=
  requote (drop_commas (remove_backslashes (remove_quotes cs)))

/-! ### Fragment location (utils.py lines 219-241)

`eval_json` and `ret_json` both locate a fragment with
`re.search(r'({[^}]+"%s"\s*:[^}]+})' % key, text, re.DOTALL)`.
`re.search` yields the *leftmost* match: the earliest `{` from which a
run of non-`}` characters (at least one) reaches the quoted key,
followed by optional whitespace, a colon, at least one further non-`}`
character, and the first `}`. -/

/-- Does `cs` begin with `"key"` followed by `\s*`, `:` and at least one
more character?  `cs` is always a suffix of the brace-free zone, so the
trailing requirement coincides with the regex's final `[^}]+`. -/
def keyColonCheck (key : List Char) (cs : List Char) : Bool :=
  if ('"' :: key ++ ['"']).isPrefixOf cs then
    let t := cs.drop (key.length + 2)
    match t.drop (t.takeWhile pyWs).length with
    | ':' :: e => e ≠ []
    | _ => false
  else false

/-- Try `keyColonCheck` at every suffix (the backtracking of the leading
`[^}]+`). -/
def scanKeyColon (key : List Char) : List Char → Bool
  | [] => false
  | c :: rest => keyColonCheck key (c :: rest) || scanKeyColon key rest

/-- Match the fragment pattern at the current position: requires a `{`,
a closing `}` later, and a key-colon occurrence strictly after the first
character of the brace-free zone.  Returns the matched fragment and the
remainder after it. -/
def fragMatchAt (key : List Char) : List Char → Option (List Char × List Char)
  | [] => none
  | c :: rest =>
      if c = '{' then
        match rest.takeWhile (fun c => c ≠ '}') with
        | [] => none
        | b0 :: btail =>
            if (b0 :: btail).length < rest.length ∧ scanKeyColon key btail then
              some ('{' :: (b0 :: btail) ++ ['}'],
                rest.drop ((b0 :: btail).length + 1))
            else none
      else none

/-- Leftmost match of the fragment pattern (`re.search`). -/
def findFrag (key : List Char) : List Char → Option (List Char)
  | [] => none
  | c :: rest =>
      match fragMatchAt key (c :: rest) with
      | some (frag, _) => some frag
      | none => findFrag key rest

/-- `eval_json` (utils.py lines 219-234): locate the fragment; if none,
`False`; otherwise repair with `fix_json` and report whether
`json.loads` succeeds.  (The live debugger breakpoint inside `fix_json`
is modelled as a no-op; see claim C4.) -/
def eval_json (text key : List Char) : Bool :=
  match findFrag key text with
  | none => false
  | some frag => (json_loads (fix_json frag)).isSome

/-- `ret_json` (utils.py lines 236-241): locate, repair, parse.  In the
source a missing fragment raises `AttributeError` and unparseable output
raises `json.JSONDecodeError`; both are modelled as `none`. -/
def ret_json (text key : List Char) : Option JVal :=
  (findFrag key text).bind fun frag => json_loads (fix_json frag)

/-! ### Record views and re-serialization -/

/-- Python `dict` lookup on a parsed object (last binding wins, as
`json.loads` keeps the last duplicate key). -/
def jlookup (k : List Char) (v : JVal) : Option JVal :=
  match v with
  | JVal.jobj ms => (ms.reverse.find? (fun m => m.1 = k)).map (fun m => m.2)
  | _ => none

/-- View a parsed value as a flat record of string fields (which is the
shape of every record `ret_json` can produce, since `fix_json` re-quotes
every value).  Comparisons between extraction results are made through
this view, which has decidable equality. -/
def asFlatObj (v : JVal) : Option (List (List Char × List Char)) :=
  match v with
  | JVal.jobj ms =>
      ms.foldr
        (fun m acc =>
          match m.2, acc with
          | JVal.jstr s, some r => some ((m.1, s) :: r)
          | _, _ => none)
        (some [])
  | _ => none

/-- JSON string escaping as performed by `json.dumps` for the characters
this development manipulates. -/
def escChar (c : Char) : List Char :=
  if c = '"' then ['\\', '"']
  else if c = '\\' then ['\\', '\\']
  else if c = '\n' then ['\\', 'n']
  else if c = '\t' then ['\\', 't']
  else if c = '\r' then ['\\', 'r']
  else [c]

def escStr (s : List Char) : List Char :=
  s.flatMap escChar

/-- One serialized member `"k": "v"` of a flat record. -/
def dumpsMember (m : List Char × List Char) : List Char :=
  '"' :: escStr m.1 ++ '"' :: ':' :: ' ' :: '"' :: escStr m.2 ++ ['"']

def dumpsMembers : List (List Char × List Char) → List Char
  | [] => []
  | [m] => dumpsMember m
  | m :: rest => dumpsMember m ++ ',' :: ' ' :: dumpsMembers rest

/-- Model of `json.dumps` (default separators `', '` and `': '`) on the
flat string records produced by extraction. -/
def dumps_flat (ms : List (List Char × List Char)) : List Char :=
  '{' :: dumpsMembers ms ++ ['}']

/-! ### `ClaudeBot.get_retry_simple_response` (claude_bot.py lines 184-244)

The controller loops `for attempt in range(max_retries)`, calling the
completion client once per iteration.  The model reply is an oracle
`resp : ℕ → σ` indexed by the attempt number.  `eval_func` may return a
truth value or raise `ValueError` (caught by the `except ValueError`);
`process_func` may return a value, return `None`, or raise `ValueError`.

Branches, as in the source:
* evaluation returns false: sleep `5 * (2 * attempt)` (line 223 — the
  comment says "Exponential backoff" but the expression is linear) and
  `continue`;
* evaluation true and processing returns a non-`None` value: return it;
* otherwise (processing returned `None`, or either function raised
  `ValueError`): if `attempt < max_retries - 1`, sleep `5 * 2^attempt`
  (line 239) and retry;
* loop exhausted: raise
  `ValueError("Failed to get a valid response after ... attempts")`,
  modelled as `none`. -/

inductive EvalOut where
  | accept : EvalOut
  | reject : EvalOut
  | valueError : EvalOut
deriving DecidableEq

inductive ProcOut (α : Type) where
  | ret : α → ProcOut α
  | noneResult : ProcOut α
  | valueError : ProcOut α

structure RetryRun (α : Type) where
  result : Option α
  calls : ℕ
  sleeps : List ℕ
deriving DecidableEq

def retryAux {σ α : Type} (resp : ℕ → σ) (ev : σ → EvalOut)
    (pr : σ → ProcOut α) (maxRetries : ℕ) : List ℕ → RetryRun α
  | [] => ⟨none, 0, []⟩
  | attempt :: rest =>
      let r := resp attempt
      match ev r with
      | EvalOut.reject =>
          let k := retryAux resp ev pr maxRetries rest
          ⟨k.result, k.calls + 1, 5 * (2 * attempt) :: k.sleeps⟩
      | EvalOut.accept =>
          match pr r with
          | ProcOut.ret a => ⟨some a, 1, []⟩
          | _ =>
              let k := retryAux resp ev pr maxRetries rest
              ⟨k.result, k.calls + 1,
                (if attempt < maxRetries - 1 then [5 * 2 ^ attempt] else [])
                  ++ k.sleeps⟩
      | EvalOut.valueError =>
          let k := retryAux resp ev pr maxRetries rest
          ⟨k.result, k.calls + 1,
            (if attempt < maxRetries - 1 then [5 * 2 ^ attempt] else [])
              ++ k.sleeps⟩

def get_retry_simple_response {σ α : Type} (resp : ℕ → σ) (ev : σ → EvalOut)
    (pr : σ → ProcOut α) (maxRetries : ℕ) : RetryRun α :=
  retryAux resp ev pr maxRetries (List.range maxRetries)

/-! ### `ClaudeBot._post_response` (claude_bot.py lines 143-182)

`for retry in range(5)`: post; on status 200 return the text payload;
otherwise log, `time.sleep(5)`, retry.  Exhaustion raises
`Exception("The system is not available")`, modelled as `none`.  The
oracle maps the request index to the endpoint's reply. -/

structure HttpResp where
  status : ℕ
  text : List Char

structure PostRun where
  result : Option (List Char)
  sleeps : List ℕ

def postAux (resp : ℕ → HttpResp) : List ℕ → PostRun
  | [] => ⟨none, []⟩
  | retry :: rest =>
      let r := resp retry
      if r.status = 200 then ⟨some r.text, []⟩
      else
        let k := postAux resp rest
        ⟨k.result, 5 :: k.sleeps⟩

def post_response (resp : ℕ → HttpResp) : PostRun :=
  postAux resp (List.range 5)

/-! ### `Referee.provide_best_clue` (referee.py lines 216-257)

`rank_clues` scores every clue with one model round-trip each
(`rank_single_clue`); the parsed reply is `{"index": i, "score": s,
"explanation": e}` — the prompt instructs the model to echo the given
index, and the fallback after three parse failures echoes it too, which
is the `echo` hypothesis of the theorems.  `provide_best_clue` sorts
the ranked clues by score descending (Python `sorted` with
`reverse=True`, stable) and serves the first whose index is not in
`returned_clues`, adding the index to the set; if `ranked_clues` is
empty it returns a bare apology string, and if every ranked index was
already returned it returns the dead-end record. -/

structure Clue where
  ident : List Char
  isLocation : Bool
  description : List Char
deriving DecidableEq

structure RankedClue where
  index : ℕ
  score : ℤ
deriving DecidableEq

inductive ProvideResult where
  | noClues : ProvideResult
  | deadEnd : ProvideResult
  | given : ℕ → Option Clue → ProvideResult
deriving DecidableEq

def rank_clues (oracle : ℕ → Clue → RankedClue) (clues : List Clue) :
    List RankedClue :=
  ((List.range clues.length).zip clues).map (fun p => oracle p.1 p.2)

def sortRanked (l : List RankedClue) : List RankedClue :=
  l.mergeSort (fun a b => b.score ≤ a.score)

def provide_best_clue (clues : List Clue) (ranked : List RankedClue)
    (returned : Finset ℕ) : ProvideResult × Finset ℕ :=
  if ranked = [] then (ProvideResult.noClues, returned)
  else
    match (sortRanked ranked).find? (fun rc => decide (rc.index ∉ returned)) with
    | some rc =>
        (ProvideResult.given rc.index (clues.get? rc.index),
         insert rc.index returned)
    | none => (ProvideResult.deadEnd, returned)

/-- One run of the referee: a sequence of investigator statements, each
inducing (through the ranking oracle) a ranked-clue list; the returned
set threads through.  Yields the list of issued clue indices and the
final state. -/
def runProvide (clues : List Clue) : List (List RankedClue) → Finset ℕ →
    List ℕ × Finset ℕ
  | [], returned => ([], returned)
  | ranked :: rest, returned =>
      match provide_best_clue clues ranked returned with
      | (ProvideResult.given i _, st) =>
          (i :: (runProvide clues rest st).1, (runProvide clues rest st).2)
      | (_, st) => runProvide clues rest st

/-! ### `Referee.best_choice` (referee.py lines 150-198)

Each of four candidate next-action texts is scored by one model
round-trip validated by `eval_score` (an integer 0-100).  The selection
loop is `_max_act = 0; for key in ans: if ans[key] > _max_act: ...`;
iteration over the dict follows insertion order, i.e. the fixed action
list.  When every score is 0 the variable `_ret_key` is never bound and
the function's final `return _ret_key` raises `UnboundLocalError`,
modelled as `none`. -/

def next_action_categories : List (List Char) :=
  ["provide_solution".toList, "review_newspapers".toList,
   "visit_informant".toList, "visit_location".toList]

/-- One iteration of the selection loop: `if ans[key] > _max_act:
_max_act = ans[key]; _ret_key = key`.  The accumulator is
`(_max_act, _ret_key)`, with `_ret_key = none` while the variable is
unbound (`_max_act` starts as the int `0`).  `ans[key]` is the value
`ret_json(x, 'score')['score']` extracted from the model reply, so it
is a `JVal`, not a number: Python's `>` between a non-number and an int
raises `TypeError`, modelled as `none`. -/
def bcStep (acc : ℤ × Option (List Char)) (kv : List Char × JVal) :
    Option (ℤ × Option (List Char)) :=
  match kv.2 with
  | JVal.jnum n => some (if n > acc.1 then (n, some kv.1) else acc)
  | _ => none

/-- The `for key in ans:` loop over insertion order; a raised
`TypeError` aborts the whole loop (`none`). -/
def bcFold : List (List Char × JVal) → ℤ × Option (List Char) →
    Option (ℤ × Option (List Char))
  | [], acc => some acc
  | kv :: rest, acc => (bcStep acc kv).bind (fun acc2 => bcFold rest acc2)

/-- `Referee.best_choice` over the per-category extracted score values.
Result: `none` — a comparison raised `TypeError`; `some none` — the
loop completed without ever binding `_ret_key`, so the final
`return _ret_key` raises `UnboundLocalError`; `some (some c)` — the
category `c` is returned. -/
def best_choice (scores : List Char → JVal) : Option (Option (List Char)) :=
  (bcFold (next_action_categories.map (fun a => (a, scores a))) (0, none)).map
    Prod.snd

/-! ### `Referee.evaluate_answer` (referee.py lines 259-304)

For each question the model's reply is extracted with
`ret_json(response, 'confidence')` and validated by `eval_confidence`
(`int(dat['confidence'])` between 0 and 100); then the source computes
`result['score'] = (result['confidence'] / 100) * question['points']`.
Python's `/` is defined on numbers only; applying it to the string that
`fix_json`'s re-quoting produces raises `TypeError`, modelled as `none`
in `confidence_div`. -/

def confidence_div (v : JVal) : Option ℚ :=
  match v with
  | JVal.jnum n => some ((n : ℚ) / 100)
  | _ => none

def score_step (v : JVal) (points : ℕ) : Option ℚ :=
  (confidence_div v).map (fun q => q * (points : ℚ))

/-- `eval_confidence` (utils.py lines 205-216): extraction must succeed
and `int(dat['confidence'])` must lie in `[0, 100]`.  `int` applied to a
string models Python's string-to-integer conversion restricted to digit
strings (otherwise `ValueError`, hence rejection). -/
def pyIntOfString (s : List Char) : Option ℤ :=
  let t := s.dropWhile (fun c => c = ' ')
  let t := t.reverse.dropWhile (fun c => c = ' ') |>.reverse
  match t with
  | '-' :: ds => if ds ≠ [] ∧ ds.all isDigitCh then
      some (-(ds.foldl (fun a d => a * 10 + (d.toNat - 48 : ℤ)) 0)) else none
  | ds => if ds ≠ [] ∧ ds.all isDigitCh then
      some (ds.foldl (fun a d => a * 10 + (d.toNat - 48 : ℤ)) 0) else none

def pyIntOfJVal (v : JVal) : Option ℤ :=
  match v with
  | JVal.jnum n => some n
  | JVal.jstr s => pyIntOfString s
  | _ => none

def eval_confidence (text : List Char) : Bool :=
  if eval_json text "confidence".toList then
    match (ret_json text "confidence".toList).bind
        (jlookup "confidence".toList) with
    | some v =>
        match pyIntOfJVal v with
        | some n => decide (0 ≤ n ∧ n ≤ 100)
        | none => false
    | none => false
  else false

/-! ### Newspaper-clue deduplication (investigator.py lines 364-425)

`process_newspapers` appends the freshly extracted clue to
`case_information['newspaper_clues']` exactly when `_is_new_clue`
returns true, i.e. when no stored clue has
`self.referee.compare_clues(new, old) > 0.7`.

Modelled from the spec: `Referee.compare_clues`, invoked at
investigator.py line 424, is not defined anywhere in the repository
(`refereeMethods` below lists every method of `Referee` and its base
class `ClaudeBot`); the spec describes it as "a Referee-delegated
similarity score", so it is taken as an abstract parameter
`sim : α → α → ℚ`. -/

def refereeMethods : List String :=
  ["__init__", "_create_initial_message", "rank_single_clue",
   "_create_ranking_prompt", "best_choice", "rank_clues",
   "provide_best_clue", "evaluate_answer", "_create_evaluation_prompt",
   "provide_newspapers", "ask_for_solution"]

def claudeBotMethods : List String :=
  ["__init__", "add_message", "get_simple_response", "get_response",
   "_post", "_post_response", "get_retry_simple_response",
   "process_case_content", "get_image_info", "get_full_image_index",
   "_prepare_messages_with_images"]

def is_new_clue {α : Type} (sim : α → α → ℚ) (newClue : α)
    (existing : List α) : Bool :=
  existing.all (fun c => decide (¬ sim newClue c > 7 / 10))

def store_newspaper_clue {α : Type} (sim : α → α → ℚ) (response : α)
    (existing : List α) : List α :=
  if is_new_clue sim response existing then existing ++ [response]
  else existing

/-! ### Concrete inputs used by the counterexamples and bug witnesses -/

/-- A representative model reply to an evaluation prompt: prose followed
by the requested JSON record (referee.py asks for
`{"evaluation": ..., "confidence": ...}`). -/
def exC7Response : List Char :=
  "Evaluation text.\n\x7b\n    \"evaluation\": \"Good analysis\",\n    \"confidence\": 85\n\x7d".toList

/-- A model reply whose extraction succeeds; used to test re-extraction
of the re-serialized record. -/
def exC6Response : List Char :=
  "Here you go.\n\x7b\n  \"relevance\": \"high\",\n  \"confidence\": 90\n\x7d".toList

/-- The flat record `ret_json` extracts from `exC6Response`. -/
def exC6Record : List (List Char × List Char) :=
  [("relevance".toList, "high".toList),
   ("confidence".toList, "90".toList)]

/-- A text containing two disjoint brace-delimited fragments that both
hold the key `score`. -/
def exC5Text : List Char :=
  ("first \x7b\n \"x\": \"1\",\n \"score\": 5\n\x7d middle \x7b\n \"x\": \"2\",\n \"score\": 9\n\x7d end").toList

/-- The latest minimal brace-delimited span of `exC5Text` containing
`"score"`. -/
def exC5LastFrag : List Char :=
  "\x7b\n \"x\": \"2\",\n \"score\": 9\n\x7d".toList

/-- A text containing a fragment with the key `score`: any such input
drives `eval_json` into `fix_json` and hence into the live
`pdb.set_trace()` breakpoint at utils.py lines 56-57. -/
def exC4Text : List Char :=
  "\x7b\n\"score\": 1\n\x7d".toList

/-- A representative model reply to a `best_choice` scoring prompt
(referee.py asks for `{"score": ..., "reason": ...}`): extraction
yields the score as a string. -/
def exC10Response : List Char :=
  "Close match.\n\x7b\n    \"score\": 85,\n    \"reason\": \"matches the newspapers option\"\n\x7d".toList

/-! ## Theorems -/

/-- Claim C3: the claim states that the sleep before retry attempt `n`
of `get_retry_simple_response` is `5 * 2 ^ n`.  The source's
rejected-evaluation branch (claude_bot.py line 223) computes
`5 * (2 * attempt)` — linear, starting at 0 seconds — even though its
own comment says "Exponential backoff".  A run of five rejected
evaluations sleeps `[0, 10, 20, 30, 40]`, not the claimed
`[5, 10, 20, 40, 80]`. -/
theorem C3_backoff_linear_not_exponential :
    (get_retry_simple_response (fun _ => ()) (fun _ => EvalOut.reject)
        (fun _ => (ProcOut.noneResult : ProcOut Unit)) 5).sleeps
      = [0, 10, 20, 30, 40] ∧
    [0, 10, 20, 30, 40] ≠ (List.range 5).map (fun n => 5 * 2 ^ n) := by
  exact ⟨rfl, by decide⟩

/-- Claim C4: the claim states `eval_json` never raises.  On any input
whose fragment search succeeds — such as `exC4Text` — execution
proceeds into `fix_json`, whose body executes a live
`import pdb; pdb.set_trace()` (utils.py lines 56-57): the process
suspends into the debugger, and with stdin closed `bdb.BdbQuit`
propagates (only `json.JSONDecodeError` is caught).  The
fragment-missing path, which returns `False` before reaching
`fix_json`, does behave as claimed. -/
theorem C4_reaches_debugger_breakpoint :
    (findFrag "score".toList exC4Text).isSome = true ∧
    eval_json "no structured reply at all".toList "score".toList = false := by
  exact ⟨rfl, rfl⟩

/-- Claim C7: the claim states the per-question score is
`confidence / 100 × points`.  `fix_json` re-quotes every value, so the
validated record's `confidence` field is the *string* `"85"`
(`eval_confidence` converts it with `int()` only for validation and
discards the conversion); `result['confidence'] / 100` at referee.py
line 292 is then `str / int`, which raises `TypeError` before any score
is computed. -/
theorem C7_confidence_string_type_error :
    eval_confidence exC7Response = true ∧
    (ret_json exC7Response "confidence".toList).bind
        (jlookup "confidence".toList) = some (JVal.jstr "85".toList) ∧
    ((ret_json exC7Response "confidence".toList).bind
        (jlookup "confidence".toList)).bind (fun v => score_step v 20) = none := by
  exact ⟨rfl, rfl, rfl⟩

/-- Claim C8, counterexample: with three consecutive 500 replies
followed by a 200, `_post_response` sleeps after *every* non-200 reply
(claude_bot.py line 178), so it sleeps three times, not the claimed
two, before returning the 200 payload. -/
theorem C8_sleeps_three_not_two :
    (post_response (fun i => if i < 3 then ⟨500, "err".toList⟩
        else ⟨200, "ok".toList⟩)).result = some "ok".toList ∧
    (post_response (fun i => if i < 3 then ⟨500, "err".toList⟩
        else ⟨200, "ok".toList⟩)).sleeps.length = 3 ∧
    (3 : ℕ) ≠ 2 := by
  exact ⟨rfl, rfl, by decide⟩

/-- Claim C8 as amended: if the endpoint returns a non-200 status on the
first three requests and 200 on the fourth, `_post_response` returns the
text payload of the 200 reply having slept exactly three times (5
seconds after each non-200 reply). -/
theorem C8_returns_after_three_500s (resp : ℕ → HttpResp)
    (h0 : (resp 0).status ≠ 200) (h1 : (resp 1).status ≠ 200)
    (h2 : (resp 2).status ≠ 200) (h3 : (resp 3).status = 200) :
    post_response resp = ⟨some (resp 3).text, [5, 5, 5]⟩ := by
  have hr : List.range 5 = [0, 1, 2, 3, 4] := rfl
  simp [post_response, hr, postAux, h0, h1, h2, h3]

/-- Witness for `C8_returns_after_three_500s` at a concrete reply
sequence. -/
theorem C8_witness :
    post_response (fun i => if i < 3 then ⟨500, "err".toList⟩
        else ⟨200, "ok".toList⟩) = ⟨some "ok".toList, [5, 5, 5]⟩ :=
  C8_returns_after_three_500s _ (by decide) (by decide) (by decide) (by decide)

/-- Bounded call count of the retry controller, over any list of attempt
indices. -/
theorem retryAux_calls_le {σ α : Type} (resp : ℕ → σ) (ev : σ → EvalOut)
    (pr : σ → ProcOut α) (maxR : ℕ) (l : List ℕ) :
    (retryAux resp ev pr maxR l).calls ≤ l.length := by
  induction l with
  | nil => simp [retryAux]
  | cons a rest ih =>
      simp only [retryAux, List.length_cons]
      cases hev : ev (resp a) with
      | reject => simpa using Nat.add_le_add_right ih 1
      | valueError => simpa using Nat.add_le_add_right ih 1
      | accept =>
          cases hpr : pr (resp a) with
          | ret b => simp
          | noneResult => simpa using Nat.add_le_add_right ih 1
          | valueError => simpa using Nat.add_le_add_right ih 1

/-- If no attempt in the list yields an accepted, non-null processed
result, the retry controller ends with the terminal `ValueError`. -/
theorem retryAux_result_none {σ α : Type} (resp : ℕ → σ) (ev : σ → EvalOut)
    (pr : σ → ProcOut α) (maxR : ℕ) (l : List ℕ)
    (h : ∀ i ∈ l, ¬ (ev (resp i) = EvalOut.accept ∧
      ∃ a, pr (resp i) = ProcOut.ret a)) :
    (retryAux resp ev pr maxR l).result = none := by
  induction l with
  | nil => simp [retryAux]
  | cons a rest ih =>
      have hrest : ∀ i ∈ rest, ¬ (ev (resp i) = EvalOut.accept ∧
          ∃ b, pr (resp i) = ProcOut.ret b) :=
        fun i hi => h i (List.mem_cons_of_mem a hi)
      have hhead := h a (List.mem_cons_self a rest)
      simp only [retryAux]
      cases hev : ev (resp a) with
      | reject => simpa using ih hrest
      | valueError => simpa using ih hrest
      | accept =>
          cases hpr : pr (resp a) with
          | ret b => exact absurd ⟨hev, b, hpr⟩ hhead
          | noneResult => simpa using ih hrest
          | valueError => simpa using ih hrest

/-- Claim C2: `get_retry_simple_response` calls the completion client at
most `max_retries` times (one `get_simple_response` per loop
iteration), and when no attempt produces an evaluation-accepted,
non-`None` processed result, it raises
`ValueError("Failed to get a valid response after ... attempts")`
(modelled as `result = none`) instead of returning. -/
theorem C2_retry_bounded_and_exhaustion {σ α : Type} (resp : ℕ → σ)
    (ev : σ → EvalOut) (pr : σ → ProcOut α) (maxR : ℕ) :
    (get_retry_simple_response resp ev pr maxR).calls ≤ maxR ∧
    ((∀ i, i < maxR → ¬ (ev (resp i) = EvalOut.accept ∧
        ∃ a, pr (resp i) = ProcOut.ret a)) →
      (get_retry_simple_response resp ev pr maxR).result = none) := by
  constructor
  · simpa [get_retry_simple_response] using
      retryAux_calls_le resp ev pr maxR (List.range maxR)
  · intro h
    exact retryAux_result_none resp ev pr maxR (List.range maxR)
      (fun i hi => h i (List.mem_range.mp hi))

/-- Witness for `C2_retry_bounded_and_exhaustion`: three attempts, all
rejected by the evaluation function. -/
theorem C2_witness :
    (get_retry_simple_response (fun _ => ()) (fun _ => EvalOut.reject)
        (fun _ => (ProcOut.noneResult : ProcOut Unit)) 3).calls ≤ 3 ∧
    (get_retry_simple_response (fun _ => ()) (fun _ => EvalOut.reject)
        (fun _ => (ProcOut.noneResult : ProcOut Unit)) 3).result = none := by
  have h := C2_retry_bounded_and_exhaustion (fun _ => ())
    (fun _ => EvalOut.reject)
    (fun _ => (ProcOut.noneResult : ProcOut Unit)) 3
  exact ⟨h.1, h.2 (fun i _ hc => by simp at hc)⟩

/-- Claim C10: the claim describes `best_choice`'s selection loop —
return the maximum-scoring category (ties to the earliest in the fixed
list), never binding `_ret_key` when every score is 0 — but that loop
is written for numeric scores, while `ans[key]` is the value
`ret_json` extracts, which is always a *string* (`fix_json` re-quotes
every value; see claim C7).  So `ans[key] > _max_act` compares a `str`
to the int 0 and raises `TypeError` on the very first iteration, for
every run: the first conjunct shows a representative scoring reply
yields the string `"85"`, the second that the loop then raises
`TypeError` (`none`).  The remaining conjuncts evaluate the loop on
the integer scores the code intends: the described selection behavior
(with every category scored 85, the strict `>` keeps the first
category, `provide_solution`) and the unbound-`_ret_key` failure on
all-zero scores are reachable only in that counterfactual numeric
model. -/
theorem C10_best_choice_score_string_type_error :
    ((ret_json exC10Response "score".toList).bind (jlookup "score".toList) =
      some (JVal.jstr "85".toList)) ∧
    best_choice (fun _ => JVal.jstr "85".toList) = none ∧
    best_choice (fun _ => JVal.jnum 85) =
      some (some "provide_solution".toList) ∧
    best_choice (fun _ => JVal.jnum 0) = some none := by
  exact ⟨rfl, rfl, rfl, rfl⟩

/-- When `provide_best_clue` issues a clue, its index was not in
`returned_clues` (the loop guard `clue['index'] not in
self.returned_clues`) and the new state is the old set with that index
inserted (`self.returned_clues.add(...)`). -/
theorem provide_given_eq {clues ranked returned i p st}
    (h : provide_best_clue clues ranked returned = (ProvideResult.given i p, st)) :
    i ∉ returned ∧ st = insert i returned := by
  unfold provide_best_clue at h
  by_cases hr : ranked = []
  · rw [if_pos hr] at h
    simp at h
  · rw [if_neg hr] at h
    rcases hfind : (sortRanked ranked).find?
        (fun rc => decide (rc.index ∉ returned)) with _ | rc
    · simp only [hfind] at h
      simp at h
    · simp only [hfind] at h
      have hp := List.find?_some hfind
      have hni : rc.index ∉ returned := by simpa using hp
      simp only [Prod.mk.injEq, ProvideResult.given.injEq] at h
      rcases h with ⟨⟨hidx, _⟩, hstate⟩
      rw [← hidx]
      exact ⟨hni, hstate.symm⟩

/-- When `provide_best_clue` does not issue a clue, `returned_clues` is
unchanged. -/
theorem provide_notGiven_eq {clues ranked returned res st}
    (h : provide_best_clue clues ranked returned = (res, st))
    (hres : ∀ i p, res ≠ ProvideResult.given i p) : st = returned := by
  unfold provide_best_clue at h
  by_cases hr : ranked = []
  · rw [if_pos hr] at h
    simp only [Prod.mk.injEq] at h
    exact h.2.symm
  · rw [if_neg hr] at h
    rcases hfind : (sortRanked ranked).find?
        (fun rc => decide (rc.index ∉ returned)) with _ | rc
    · simp only [hfind, Prod.mk.injEq] at h
      exact h.2.symm
    · simp only [hfind, Prod.mk.injEq] at h
      exact absurd h.1.symm (hres rc.index _)

/-- Equation lemmas for one step of `runProvide`. -/
theorem runProvide_cons_given {clues ranked rest returned i p st}
    (h : provide_best_clue clues ranked returned = (ProvideResult.given i p, st)) :
    runProvide clues (ranked :: rest) returned =
      (i :: (runProvide clues rest st).1, (runProvide clues rest st).2) := by
  simp only [runProvide, h]

theorem runProvide_cons_noClues {clues ranked rest returned st}
    (h : provide_best_clue clues ranked returned = (ProvideResult.noClues, st)) :
    runProvide clues (ranked :: rest) returned = runProvide clues rest st := by
  simp only [runProvide, h]

theorem runProvide_cons_deadEnd {clues ranked rest returned st}
    (h : provide_best_clue clues ranked returned = (ProvideResult.deadEnd, st)) :
    runProvide clues (ranked :: rest) returned = runProvide clues rest st := by
  simp only [runProvide, h]

/-- Over any run (any sequence of ranked-clue lists, i.e. any sequence
of investigator statements under any model scoring), the issued clue
indices are pairwise distinct and disjoint from the starting
`returned_clues` set. -/
theorem runProvide_spec (clues : List Clue) (seq : List (List RankedClue)) :
    ∀ returned : Finset ℕ,
      (runProvide clues seq returned).1.Nodup ∧
      ∀ i ∈ (runProvide clues seq returned).1, i ∉ returned := by
  induction seq with
  | nil => intro returned; simp [runProvide]
  | cons ranked rest ih =>
      intro returned
      rcases hstep : provide_best_clue clues ranked returned with ⟨res, st⟩
      cases res with
      | given i p =>
          rcases provide_given_eq hstep with ⟨hni, hst⟩
          rcases ih st with ⟨hnd, hdisj⟩
          rw [runProvide_cons_given hstep]
          constructor
          · refine List.nodup_cons.mpr ⟨?_, hnd⟩
            intro hmem
            have := hdisj i hmem
            rw [hst] at this
            exact this (Finset.mem_insert_self i returned)
          · intro j hj
            rcases List.mem_cons.mp hj with hj0 | hj1
            · rw [hj0]; exact hni
            · intro hjr
              exact hdisj j hj1 (by rw [hst]; exact Finset.mem_insert_of_mem hjr)
      | noClues =>
          have hst : st = returned :=
            provide_notGiven_eq hstep (by intro i p h; cases h)
          rcases ih st with ⟨hnd, hdisj⟩
          rw [runProvide_cons_noClues hstep]
          exact ⟨hnd, by rw [← hst]; exact hdisj⟩
      | deadEnd =>
          have hst : st = returned :=
            provide_notGiven_eq hstep (by intro i p h; cases h)
          rcases ih st with ⟨hnd, hdisj⟩
          rw [runProvide_cons_deadEnd hstep]
          exact ⟨hnd, by rw [← hst]; exact hdisj⟩

/-- When the ranked list is nonempty and every ranked index is already
in `returned_clues`, `provide_best_clue` yields the dead-end record. -/
theorem provide_deadEnd_of_all_returned {clues ranked returned}
    (h1 : ranked ≠ []) (h2 : ∀ rc ∈ ranked, rc.index ∈ returned) :
    (provide_best_clue clues ranked returned).1 = ProvideResult.deadEnd := by
  unfold provide_best_clue
  rw [if_neg h1]
  have hfind : (sortRanked ranked).find?
      (fun rc => decide (rc.index ∉ returned)) = none := by
    rw [List.find?_eq_none]
    intro rc hrc
    have hmem : rc ∈ ranked := by
      have := List.mem_mergeSort.mp hrc
      exact this
    simpa using h2 rc hmem
  rw [hfind]

/-- Claim C1 as amended: over every run (every clue list, every sequence
of investigator statements, every model scoring) no clue index is issued
twice by `provide_best_clue` — once an index enters `returned_clues` it
is never issued again — and, for a *nonempty* clue list, once every
clue index has been returned the call yields the dead-end record.  (For
an empty clue list the source instead returns the bare apology string
`"Cannot find a relevant clue here..."`, see the counterexample.)
The `hecho` hypothesis states that the ranking reply carries the clue
index the prompt asked the model to echo, as the parse-failure fallback
in `rank_single_clue` guarantees. -/
theorem C1_no_reissue_and_dead_end (oracle : ℕ → Clue → RankedClue)
    (clues : List Clue) (hecho : ∀ i c, (oracle i c).index = i) :
    (∀ (seq : List (List RankedClue)) (returned : Finset ℕ),
      (runProvide clues seq returned).1.Nodup ∧
      ∀ i ∈ (runProvide clues seq returned).1, i ∉ returned) ∧
    (∀ returned : Finset ℕ, clues ≠ [] →
      (∀ i, i < clues.length → i ∈ returned) →
      (provide_best_clue clues (rank_clues oracle clues) returned).1 =
        ProvideResult.deadEnd) := by
  constructor
  · intro seq returned
    exact runProvide_spec clues seq returned
  · intro returned hne hall
    apply provide_deadEnd_of_all_returned
    · simp only [rank_clues, ne_eq, List.map_eq_nil_iff]
      intro hz
      have : (List.range clues.length).zip clues = [] := hz
      have hlen := congrArg List.length this
      simp at hlen
      exact hne hlen
    · intro rc hrc
      rcases List.mem_map.mp hrc with ⟨pair, hpair, hrc'⟩
      have hfst : pair.1 ∈ List.range clues.length :=
        (List.of_mem_zip hpair).1
      have hlt : pair.1 < clues.length := List.mem_range.mp hfst
      rw [← hrc', hecho]
      exact hall pair.1 hlt

/-- Witness for `C1_no_reissue_and_dead_end`: one clue, an echoing
oracle, a two-statement run, and a saturated returned set. -/
theorem C1_witness :
    ((runProvide [⟨"inn".toList, true, "d".toList⟩]
        [[⟨0, 80⟩], [⟨0, 60⟩]] ∅).1.Nodup ∧
      ∀ i ∈ (runProvide [⟨"inn".toList, true, "d".toList⟩]
        [[⟨0, 80⟩], [⟨0, 60⟩]] ∅).1, i ∉ (∅ : Finset ℕ)) ∧
    (provide_best_clue [⟨"inn".toList, true, "d".toList⟩]
        (rank_clues (fun i _ => ⟨i, 50⟩) [⟨"inn".toList, true, "d".toList⟩])
        {0}).1 = ProvideResult.deadEnd := by
  have h := C1_no_reissue_and_dead_end (fun i _ => ⟨i, 50⟩)
    [⟨"inn".toList, true, "d".toList⟩] (fun i c => rfl)
  refine ⟨h.1 [[⟨0, 80⟩], [⟨0, 60⟩]] ∅, h.2 {0} (by simp) ?_⟩
  intro i hi
  have : i = 0 := Nat.lt_one_iff.mp hi
  simp [this]

/-- Claim C1, counterexample to the unamended statement: with an empty
clue list every clue index has (vacuously) been returned, yet
`provide_best_clue` returns the bare apology string
(`"Cannot find a relevant clue here, please think and try again."`,
referee.py line 233) rather than the dead-end record. -/
theorem C1_empty_clues_counterexample :
    (provide_best_clue [] (rank_clues (fun i _ => ⟨i, 50⟩) []) ∅).1 =
      ProvideResult.noClues ∧
    ProvideResult.noClues ≠ ProvideResult.deadEnd := by
  exact ⟨rfl, by decide⟩

/-- Claim C9: the dedup logic of `process_newspapers` appends the new
clue iff its similarity to every stored newspaper clue is at most 0.7 —
this is the iff in the second conjunct, over the spec-modelled
similarity function.  The first conjunct records why the similarity had
to be spec-modelled *and* why the claim fails on the code as written:
the delegation target `Referee.compare_clues` (investigator.py line
424) is not among the methods of `Referee` or its base class
`ClaudeBot` — it is defined nowhere in the repository — so as soon as
one newspaper clue is stored, `_is_new_clue` raises `AttributeError`
instead of computing a similarity. -/
theorem C9_compare_clues_missing_dedup_model :
    ("compare_clues" ∉ refereeMethods ++ claudeBotMethods) ∧
    (∀ (α : Type) (sim : α → α → ℚ) (nc : α) (existing : List α),
      store_newspaper_clue sim nc existing = existing ++ [nc] ↔
        ∀ c ∈ existing, sim nc c ≤ 7 / 10) := by
  constructor
  · decide
  · intro α sim nc existing
    unfold store_newspaper_clue is_new_clue
    by_cases h : existing.all (fun c => decide (¬ sim nc c > 7 / 10)) = true
    · rw [if_pos h]
      simp only [List.all_eq_true, decide_eq_true_eq, not_lt] at h
      simp only [true_iff, eq_self_iff_true]
      exact fun c hc => h c hc
    · rw [if_neg h]
      simp only [List.all_eq_true, decide_eq_true_eq, not_lt] at h
      push_neg at h
      constructor
      · intro habs
        have := congrArg List.length habs
        simp at this
      · intro hall
        rcases h with ⟨c, hc, hgt⟩
        exact absurd (hall c hc) (by exact not_le.mpr hgt)

/-- Claim C5, counterexample: `exC5Text` contains two disjoint
brace-delimited fragments holding the key `score`; extraction returns
the record of the *first* fragment, which differs from the record of
the latest such fragment — refuting "locates and parses the last such
fragment". -/
theorem C5_first_fragment_counterexample :
    (ret_json exC5Text "score".toList).bind asFlatObj =
      some [("x".toList, "1".toList), ("score".toList, "5".toList)] ∧
    (json_loads (fix_json exC5LastFrag)).bind asFlatObj =
      some [("x".toList, "2".toList), ("score".toList, "9".toList)] ∧
    (ret_json exC5Text "score".toList).bind asFlatObj ≠
      (json_loads (fix_json exC5LastFrag)).bind asFlatObj := by
  refine ⟨rfl, rfl, ?_⟩
  have h1 : (ret_json exC5Text "score".toList).bind asFlatObj =
      some [("x".toList, "1".toList), ("score".toList, "5".toList)] := rfl
  have h2 : (json_loads (fix_json exC5LastFrag)).bind asFlatObj =
      some [("x".toList, "2".toList), ("score".toList, "9".toList)] := rfl
  rw [h1, h2]
  decide

/-- `fragMatchAt` only fires on an opening brace. -/
theorem fragMatchAt_ne_brace {key c l} (h : c ≠ '{') :
    fragMatchAt key (c :: l) = none := by
  simp only [fragMatchAt, if_neg h]

/-- No match in a brace-free text. -/
theorem findFrag_none_of_no_brace {key l} (h : '{' ∉ l) :
    findFrag key l = none := by
  induction l with
  | nil => rfl
  | cons c rest ih =>
      have hc : c ≠ '{' := fun hc => h (by rw [hc]; exact List.mem_cons_self _ _)
      have hrest : '{' ∉ rest := fun hr => h (List.mem_cons_of_mem _ hr)
      simp only [findFrag, fragMatchAt_ne_brace hc]
      exact ih hrest

theorem takeWhile_append_all {p : Char → Bool} {l : List Char} (r : List Char)
    (hl : ∀ c ∈ l, p c = true) (c0 : Char) (hc0 : p c0 = false) :
    (l ++ c0 :: r).takeWhile p = l := by
  induction l with
  | nil => simp [List.takeWhile_cons, hc0]
  | cons x xs ih =>
      have hx : p x = true := hl x (List.mem_cons_self _ _)
      have ih' := ih (fun c hc => hl c (List.mem_cons_of_mem _ hc))
      simp [List.takeWhile_cons, hx, ih']

/-- Claim C5 as amended: extraction operates on the *first* (leftmost)
match of the fragment pattern.  If the text is `pre ++ frag ++ post`
where `pre` contains no opening brace and
`frag = '{' :: mid ++ ['}']` is a matching fragment (its interior is
brace-free and contains the quoted key, at offset at least one, followed
by optional whitespace, a colon and at least one more character), then
`ret_json` parses exactly that first fragment, whatever comes after. -/
theorem C5_locates_first_fragment (pre mid post key : List Char)
    (hpre : '{' ∉ pre) (hmid : ∀ c ∈ mid, c ≠ '}')
    (hscan : scanKeyColon key mid.tail = true) :
    findFrag key (pre ++ '{' :: mid ++ '}' :: post) =
      some ('{' :: mid ++ ['}']) ∧
    ret_json (pre ++ '{' :: mid ++ '}' :: post) key =
      json_loads (fix_json ('{' :: mid ++ ['}'])) := by
  have hmid_ne : mid ≠ [] := by
    intro hz
    rw [hz] at hscan
    simp [scanKeyColon] at hscan
  have hmatch : fragMatchAt key ('{' :: (mid ++ '}' :: post)) =
      some ('{' :: mid ++ ['}'], post) := by
    have htake : (mid ++ '}' :: post).takeWhile (fun c => decide (c ≠ '}')) = mid := by
      refine takeWhile_append_all post ?_ '}' (by simp)
      intro c hc
      simpa using hmid c hc
    rcases List.exists_cons_of_ne_nil hmid_ne with ⟨m0, mtail, hm⟩
    subst hm
    simp only [List.tail_cons] at hscan
    have hlen : (m0 :: mtail).length < ((m0 :: mtail) ++ '}' :: post).length := by
      simp
    have hdrop : ((m0 :: mtail) ++ '}' :: post).drop ((m0 :: mtail).length + 1)
        = post := by
      have hre : (m0 :: mtail) ++ '}' :: post = ((m0 :: mtail) ++ ['}']) ++ post := by
        simp
      have hl : ((m0 :: mtail) ++ ['}']).length = (m0 :: mtail).length + 1 := by
        simp
      rw [hre, ← hl]
      exact List.drop_left _ _
    simp only [fragMatchAt, htake, hdrop]
    simp [hlen, hscan]
  have hfind : findFrag key (pre ++ '{' :: mid ++ '}' :: post) =
      some ('{' :: mid ++ ['}']) := by
    induction pre with
    | nil =>
        show findFrag key ('{' :: (mid ++ '}' :: post)) = _
        simp only [findFrag, hmatch]
    | cons c cs ih =>
        have hc : c ≠ '{' := fun hcE => hpre (by rw [hcE]; exact List.mem_cons_self _ _)
        have hcs : '{' ∉ cs := fun hr => hpre (List.mem_cons_of_mem _ hr)
        simp only [List.cons_append, findFrag, fragMatchAt_ne_brace hc]
        exact ih hcs
  refine ⟨hfind, ?_⟩
  unfold ret_json
  rw [hfind]
  rfl

/-- Witness for `C5_locates_first_fragment` at a concrete split of
`exC5Text`. -/
theorem C5_witness :
    findFrag "score".toList ("first ".toList ++
        '{' :: "\n \"x\": \"1\",\n \"score\": 5\n".toList ++
        '}' :: " middle \x7b\n \"x\": \"2\",\n \"score\": 9\n\x7d end".toList) =
      some ('{' :: "\n \"x\": \"1\",\n \"score\": 5\n".toList ++ ['}']) ∧
    ret_json ("first ".toList ++
        '{' :: "\n \"x\": \"1\",\n \"score\": 5\n".toList ++
        '}' :: " middle \x7b\n \"x\": \"2\",\n \"score\": 9\n\x7d end".toList)
        "score".toList =
      json_loads (fix_json
        ('{' :: "\n \"x\": \"1\",\n \"score\": 5\n".toList ++ ['}'])) :=
  C5_locates_first_fragment _ _ _ _ (by decide) (by decide) (by decide)

/-- Claim C6, counterexample: extraction succeeds on `exC6Response`,
yielding the flat record `exC6Record`; re-running extraction with the
same key on the record's JSON re-serialization (`json.dumps`, compact)
does not yield the same record — it fails outright, because `fix_json`
strips every double quote and its re-quoting pass only fires on
newline-terminated members, of which a compact serialization has
none. -/
theorem C6_not_idempotent_counterexample :
    eval_json exC6Response "confidence".toList = true ∧
    (ret_json exC6Response "confidence".toList).bind asFlatObj =
      some exC6Record ∧
    eval_json (dumps_flat exC6Record) "confidence".toList = false := by
  exact ⟨rfl, rfl, rfl⟩

/-! ### Lemmas for claim C6: `eval_json` rejects every newline-free
input.

`fix_json`'s re-quoting pass only fires on members terminated by a
newline (`,\s*\n` or `\n}`), so on a newline-free text it is the
identity (the `..._some_nl` chain through `requote_id` below).  The
quote-stripping pass has already removed every double quote and the
comma pass deletes only commas, so the repaired fragment is a
quote-free string of the shape `'{' :: Z` in which the colon required
by the fragment pattern still occurs — and `json_loads` rejects every
such string.  Since `json.dumps` escapes control characters, a compact
re-serialization never contains a raw newline; hence re-extraction
fails on the serialization of *every* successfully extracted record,
with no assumption on its contents. -/

theorem splitAtLastNl_some_nl : ∀ {l : List Char} {p},
    splitAtLastNl l = some p → '\n' ∈ l := by
  intro l
  induction l with
  | nil => intro p h; simp [splitAtLastNl] at h
  | cons c rest ih =>
      intro p h
      simp only [splitAtLastNl] at h
      cases hrec : splitAtLastNl rest with
      | some q =>
          exact List.mem_cons_of_mem _ (ih hrec)
      | none =>
          simp only [hrec] at h
          by_cases hc : c = '\n'
          · rw [hc]; exact List.mem_cons_self _ _
          · rw [if_neg hc] at h; cases h

theorem term_match_some_nl : ∀ {cs : List Char} {p},
    term_match cs = some p → '\n' ∈ cs := by
  intro cs p h
  rw [term_match.eq_def] at h
  split at h
  · rename_i rest
    rcases Option.map_eq_some'.mp h with ⟨q, hq, _⟩
    have hmem := splitAtLastNl_some_nl hq
    have hsub : List.Sublist (rest.takeWhile pyWs) rest :=
      List.takeWhile_sublist pyWs
    exact List.mem_cons_of_mem _ (hsub.mem hmem)
  · exact List.mem_cons_self _ _
  · cases h

theorem findTermFrom_some_nl : ∀ {cs : List Char} {p},
    findTermFrom cs = some p → '\n' ∈ cs := by
  intro cs
  induction cs with
  | nil => intro p h; simp [findTermFrom] at h
  | cons c rest ih =>
      intro p h
      simp only [findTermFrom] at h
      cases htm : term_match (c :: rest) with
      | some q => exact term_match_some_nl htm
      | none =>
          simp only [htm] at h
          rcases Option.map_eq_some'.mp h with ⟨q, hq, _⟩
          exact List.mem_cons_of_mem _ (ih hq)

theorem valueSearchGo_some_nl : ∀ {k : ℕ} {w rest0 : List Char} {p},
    valueSearchGo w rest0 k = some p → '\n' ∈ w ∨ '\n' ∈ rest0 := by
  intro k
  induction k with
  | zero =>
      intro w rest0 p h
      simp only [valueSearchGo] at h
      rcases Option.map_eq_some'.mp h with ⟨q, hq, _⟩
      have := findTermFrom_some_nl hq
      rcases List.mem_append.mp this with h1 | h2
      · exact Or.inl (((List.drop_sublist 0 w)).mem h1)
      · exact Or.inr h2
  | succ k ih =>
      intro w rest0 p h
      simp only [valueSearchGo] at h
      cases hft : findTermFrom (w.drop (k + 1) ++ rest0) with
      | some q =>
          have := findTermFrom_some_nl hft
          rcases List.mem_append.mp this with h1 | h2
          · exact Or.inl ((List.drop_sublist (k + 1) w).mem h1)
          · exact Or.inr h2
      | none =>
          simp only [hft] at h
          exact ih h

theorem valueSearch_some_nl {cs : List Char} {p}
    (h : valueSearch cs = some p) : '\n' ∈ cs := by
  simp only [valueSearch] at h
  rcases valueSearchGo_some_nl h with h1 | h2
  · exact (List.takeWhile_sublist pyWs).mem h1
  · exact (List.drop_sublist _ cs).mem h2

theorem colonSplitsDesc_snd_chars {r : List Char} {p}
    (hp : p ∈ colonSplitsDesc r) : ∀ c ∈ p.2, c ∈ r := by
  simp only [colonSplitsDesc, List.mem_map, List.mem_reverse,
    List.mem_filter] at hp
  rcases hp with ⟨l, _, hpl⟩
  intro c hc
  rw [← hpl] at hc
  exact (List.drop_sublist (l + 1) r).mem hc

theorem candFirst_chars {r w3 d : List Char} {cand}
    (h : cand ∈ candFirst r w3 d) : ∀ c ∈ cand.2.2, c ∈ d := by
  rw [candFirst.eq_def] at h
  split at h
  · simp only [List.mem_singleton] at h
    subst h
    intro c hc
    exact List.mem_cons_of_mem _ hc
  · cases h

theorem keyCandidates_chars {cs : List Char} {cand}
    (hcand : cand ∈ keyCandidates cs) : ∀ c ∈ cand.2.2, c ∈ cs := by
  simp only [keyCandidates] at hcand
  intro c hc
  rcases List.mem_append.mp hcand with h1 | h2
  · have hd := candFirst_chars h1 c hc
    have h3 := (List.drop_sublist _ _).mem hd
    exact (List.drop_sublist _ _).mem h3
  · rcases List.mem_map.mp h2 with ⟨p, hp, hpe⟩
    rw [← hpe] at hc
    rcases List.mem_append.mp hc with hcl | hcr
    · exact (List.takeWhile_sublist _).mem (colonSplitsDesc_snd_chars hp c hcl)
    · exact (List.drop_sublist _ _).mem hcr

theorem firstSomeAux_some {f} : ∀ {l : List (List Char × List Char × List Char)} {r},
    firstSomeAux f l = some r → ∃ cand ∈ l, f cand = some r := by
  intro l
  induction l with
  | nil => intro r h; simp [firstSomeAux] at h
  | cons cand rest ih =>
      intro r h
      simp only [firstSomeAux] at h
      cases hf : f cand with
      | some q =>
          simp only [hf] at h
          exact ⟨cand, List.mem_cons_self _ _, by rw [hf, h]⟩
      | none =>
          simp only [hf] at h
          rcases ih h with ⟨cand2, hm, hf2⟩
          exact ⟨cand2, List.mem_cons_of_mem _ hm, hf2⟩

theorem matchCore_some_nl {cs : List Char} {p}
    (h : matchCore cs = some p) : '\n' ∈ cs := by
  simp only [matchCore] at h
  rcases firstSomeAux_some h with ⟨cand, hm, hf⟩
  rcases Option.map_eq_some'.mp hf with ⟨q, hq, _⟩
  exact keyCandidates_chars hm _ (valueSearch_some_nl hq)

theorem requoteGo_id : ∀ (fuel : ℕ) {cs : List Char}, '\n' ∉ cs →
    requoteGo fuel cs = cs := by
  intro fuel
  induction fuel with
  | zero => intro cs h; rfl
  | succ fuel ih =>
      intro cs h
      cases cs with
      | nil => rfl
      | cons c rest =>
          have hrest : '\n' ∉ rest := fun hr => h (List.mem_cons_of_mem _ hr)
          by_cases hws : pyWs c
          · simp only [requoteGo, if_pos hws, ih hrest]
          · cases hmc : matchCore (c :: rest) with
            | some q => exact absurd (matchCore_some_nl hmc) h
            | none =>
                simp only [requoteGo, if_neg hws, hmc, ih hrest]

theorem requote_id {cs : List Char} (h : '\n' ∉ cs) : requote cs = cs :=
  requoteGo_id cs.length h

theorem mem_dropWhile_of_neg {p : Char → Bool} : ∀ {l : List Char} {c : Char},
    c ∈ l → p c = false → c ∈ l.dropWhile p := by
  intro l
  induction l with
  | nil => intro c hc _; cases hc
  | cons x rest ih =>
      intro c hc hpc
      by_cases hx : p x
      · rw [List.dropWhile_cons_of_pos hx]
        rcases List.mem_cons.mp hc with h | h
        · rw [h] at hpc
          rw [hpc] at hx
          cases hx
        · exact ih h hpc
      · rw [List.dropWhile_cons_of_neg hx]
        exact hc

theorem head_dropWhile_neg {p : Char → Bool} : ∀ {l : List Char} {c : Char}
    {t : List Char}, l.dropWhile p = c :: t → p c = false := by
  intro l
  induction l with
  | nil => intro c t h; cases h
  | cons x rest ih =>
      intro c t h
      by_cases hx : p x
      · rw [List.dropWhile_cons_of_pos hx] at h
        exact ih h
      · rw [List.dropWhile_cons_of_neg hx] at h
        rw [List.cons.injEq] at h
        rw [← h.1]
        exact Bool.eq_false_iff.mpr hx

/-- A successful `keyColonCheck` sees a colon in its input. -/
theorem keyColonCheck_colon {key cs : List Char}
    (h : keyColonCheck key cs = true) : ':' ∈ cs := by
  simp only [keyColonCheck] at h
  split_ifs at h
  · split at h
    · rename_i e heq
      have h1 : ':' ∈ (cs.drop (key.length + 2)).drop
          (((cs.drop (key.length + 2)).takeWhile pyWs).length) := by
        rw [heq]
        exact List.mem_cons_self _ _
      exact (List.drop_sublist _ _).mem ((List.drop_sublist _ _).mem h1)
    · cases h

/-- The fragment pattern requires a colon after the quoted key, so a
successful scan guarantees a colon in the scanned zone. -/
theorem scanKeyColon_colon {key : List Char} : ∀ {l : List Char},
    scanKeyColon key l = true → ':' ∈ l := by
  intro l
  induction l with
  | nil => intro h; simp [scanKeyColon] at h
  | cons c rest ih =>
      intro h
      simp only [scanKeyColon, Bool.or_eq_true] at h
      rcases h with h | h
      · exact keyColonCheck_colon h
      · exact List.mem_cons_of_mem _ (ih h)

/-- Shape of a successful fragment match: the fragment is the brace,
a nonempty brace-free interior drawn from the input, and the closing
brace, with a successful key-colon scan on the interior's tail. -/
theorem fragMatchAt_some_shape {key : List Char} {c : Char} {l f r : List Char}
    (h : fragMatchAt key (c :: l) = some (f, r)) :
    ∃ b0 btail, f = '{' :: (b0 :: btail) ++ ['}'] ∧
      (∀ x ∈ b0 :: btail, x ∈ l) ∧ scanKeyColon key btail = true := by
  simp only [fragMatchAt] at h
  split_ifs at h with hc
  · rcases ht : l.takeWhile (fun c => decide (c ≠ '}')) with _ | ⟨b0, btail⟩
    · simp only [ht] at h
      cases h
    · simp only [ht] at h
      split_ifs at h with hcond
      · rw [Option.some.injEq, Prod.mk.injEq] at h
        refine ⟨b0, btail, h.1.symm, ?_, hcond.2⟩
        intro x hx
        have h2 : x ∈ l.takeWhile (fun c => decide (c ≠ '}')) := by
          rw [ht]
          exact hx
        exact (List.takeWhile_sublist _).mem h2

theorem findFrag_some_shape {key : List Char} : ∀ {l frag : List Char},
    findFrag key l = some frag →
    ∃ b0 btail, frag = '{' :: (b0 :: btail) ++ ['}'] ∧
      (∀ x ∈ b0 :: btail, x ∈ l) ∧ scanKeyColon key btail = true := by
  intro l
  induction l with
  | nil => intro frag h; simp [findFrag] at h
  | cons c rest ih =>
      intro frag h
      simp only [findFrag] at h
      cases hfm : fragMatchAt key (c :: rest) with
      | some p =>
          obtain ⟨f, r⟩ := p
          simp only [hfm] at h
          rw [Option.some.injEq] at h
          obtain ⟨b0, btail, hsh, hmem, hscan⟩ := fragMatchAt_some_shape hfm
          exact ⟨b0, btail, h ▸ hsh,
            fun x hx => List.mem_cons_of_mem _ (hmem x hx), hscan⟩
      | none =>
          simp only [hfm] at h
          obtain ⟨b0, btail, hsh, hmem, hscan⟩ := ih h
          exact ⟨b0, btail, hsh,
            fun x hx => List.mem_cons_of_mem _ (hmem x hx), hscan⟩

/-- The comma pass only ever deletes characters. -/
theorem drop_commas_mem : ∀ {l : List Char} (c : Char),
    c ∈ drop_commas l → c ∈ l := by
  intro l
  induction l using drop_commas.induct with
  | case1 c1 c2 c3 rest hcond ih =>
      intro c hc
      rw [show drop_commas (c1 :: c2 :: c3 :: rest) =
          c1 :: c3 :: drop_commas rest from by
        simp only [drop_commas, if_pos hcond]] at hc
      rcases List.mem_cons.mp hc with h | h
      · rw [h]; exact List.mem_cons_self _ _
      rcases List.mem_cons.mp h with h | h
      · rw [h]
        exact List.mem_cons_of_mem _
          (List.mem_cons_of_mem _ (List.mem_cons_self _ _))
      · exact List.mem_cons_of_mem _ (List.mem_cons_of_mem _
          (List.mem_cons_of_mem _ (ih c h)))
  | case2 c1 c2 c3 rest hcond ih =>
      intro c hc
      rw [show drop_commas (c1 :: c2 :: c3 :: rest) =
          c1 :: drop_commas (c2 :: c3 :: rest) from by
        simp only [drop_commas, if_neg hcond]] at hc
      rcases List.mem_cons.mp hc with h | h
      · rw [h]; exact List.mem_cons_self _ _
      · exact List.mem_cons_of_mem _ (ih c h)
  | case3 c0 rest harity ih =>
      intro c hc
      rcases rest with _ | ⟨x, rest2⟩
      · exact hc
      · rcases rest2 with _ | ⟨y, rest3⟩
        · exact hc
        · exact (harity x y rest3 rfl).elim
  | case4 =>
      intro c hc
      exact hc

/-- The comma pass deletes nothing but commas. -/
theorem drop_commas_mem_of : ∀ {l : List Char} (c : Char), c ∈ l → c ≠ ',' →
    c ∈ drop_commas l := by
  intro l
  induction l using drop_commas.induct with
  | case1 c1 c2 c3 rest hcond ih =>
      intro c hc hne
      rw [show drop_commas (c1 :: c2 :: c3 :: rest) =
          c1 :: c3 :: drop_commas rest from by
        simp only [drop_commas, if_pos hcond]]
      rcases List.mem_cons.mp hc with h | h
      · rw [h]; exact List.mem_cons_self _ _
      rcases List.mem_cons.mp h with h | h
      · exact absurd (h.trans hcond.1) hne
      rcases List.mem_cons.mp h with h | h
      · rw [h]
        exact List.mem_cons_of_mem _ (List.mem_cons_self _ _)
      · exact List.mem_cons_of_mem _
          (List.mem_cons_of_mem _ (ih c h hne))
  | case2 c1 c2 c3 rest hcond ih =>
      intro c hc hne
      rw [show drop_commas (c1 :: c2 :: c3 :: rest) =
          c1 :: drop_commas (c2 :: c3 :: rest) from by
        simp only [drop_commas, if_neg hcond]]
      rcases List.mem_cons.mp hc with h | h
      · rw [h]; exact List.mem_cons_self _ _
      · exact List.mem_cons_of_mem _ (ih c h hne)
  | case3 c0 rest harity ih =>
      intro c hc hne
      rcases rest with _ | ⟨x, rest2⟩
      · exact hc
      · rcases rest2 with _ | ⟨y, rest3⟩
        · exact hc
        · exact (harity x y rest3 rfl).elim
  | case4 =>
      intro c hc _
      exact hc

/-- The comma pass keeps the head character and introduces nothing
new after it. -/
theorem drop_commas_head (c : Char) (l : List Char) :
    ∃ z, drop_commas (c :: l) = c :: z ∧ ∀ x ∈ z, x ∈ l := by
  rcases l with _ | ⟨y, l2⟩
  · exact ⟨[], rfl, by simp⟩
  rcases l2 with _ | ⟨z0, l3⟩
  · exact ⟨[y], rfl, by simp⟩
  by_cases hcond : y = ',' ∧ c ≠ '\n' ∧ z0 ≠ '\n'
  · refine ⟨z0 :: drop_commas l3, ?_, ?_⟩
    · simp only [drop_commas, if_pos hcond]
    · intro x hx
      rcases List.mem_cons.mp hx with h | h
      · rw [h]
        exact List.mem_cons_of_mem _ (List.mem_cons_self _ _)
      · exact List.mem_cons_of_mem _
          (List.mem_cons_of_mem _ (drop_commas_mem x h))
  · refine ⟨drop_commas (y :: z0 :: l3), ?_, ?_⟩
    · simp only [drop_commas, if_neg hcond]
    · intro x hx
      exact drop_commas_mem x hx

/-- `fix_json` on a newline-free fragment: the output keeps the
leading brace, keeps the interior's colon, and contains no double
quote at all. -/
theorem fix_json_of_frag {b0 : Char} {btail : List Char}
    (hnl : '\n' ∉ '{' :: (b0 :: btail) ++ ['}'])
    (hcolon : ':' ∈ b0 :: btail) :
    ∃ Z, fix_json ('{' :: (b0 :: btail) ++ ['}']) = '{' :: Z ∧
      ':' ∈ Z ∧ '"' ∉ Z := by
  have h1 : remove_quotes ('{' :: ((b0 :: btail) ++ ['}'])) =
      '{' :: remove_quotes ((b0 :: btail) ++ ['}']) := by
    simp [remove_quotes, List.filter_cons]
  have h2 : remove_backslashes ('{' :: remove_quotes ((b0 :: btail) ++ ['}'])) =
      '{' :: remove_backslashes (remove_quotes ((b0 :: btail) ++ ['}'])) := by
    simp [remove_backslashes, List.filter_cons]
  set Y := remove_backslashes (remove_quotes ((b0 :: btail) ++ ['}'])) with hY
  have hYmem : ∀ x ∈ Y, x ∈ (b0 :: btail) ++ ['}'] := by
    intro x hx
    rw [hY] at hx
    simp only [remove_backslashes, remove_quotes, List.mem_filter] at hx
    exact hx.1.1
  have hYq : '"' ∉ Y := by
    intro hx
    rw [hY] at hx
    simp only [remove_backslashes, remove_quotes, List.mem_filter] at hx
    have h3 := hx.1.2
    simp at h3
  have hYcolon : ':' ∈ Y := by
    rw [hY]
    simp only [remove_backslashes, remove_quotes, List.mem_filter]
    exact ⟨⟨List.mem_append_left _ hcolon, by decide⟩, by decide⟩
  have hYnl : '\n' ∉ Y := fun hx => hnl (List.mem_cons_of_mem _ (hYmem _ hx))
  obtain ⟨Z, hZ, hZmem⟩ := drop_commas_head '{' Y
  have hcZ : ':' ∈ Z := by
    have h3 : ':' ∈ drop_commas ('{' :: Y) :=
      drop_commas_mem_of _ (List.mem_cons_of_mem _ hYcolon) (by decide)
    rw [hZ] at h3
    rcases List.mem_cons.mp h3 with h | h
    · exact absurd h (by decide)
    · exact h
  have hqZ : '"' ∉ Z := fun hx => hYq (hZmem _ hx)
  have hnlZ : '\n' ∉ '{' :: Z := by
    intro hx
    rcases List.mem_cons.mp hx with h | h
    · exact absurd h (by decide)
    · exact hYnl (hZmem _ h)
  refine ⟨Z, ?_, hcZ, hqZ⟩
  show requote (drop_commas (remove_backslashes
    (remove_quotes ('{' :: ((b0 :: btail) ++ ['}']))))) = '{' :: Z
  rw [h1, h2, hZ]
  exact requote_id hnlZ

/-- `json.loads` rejects every quote-free `'{'`-headed text whose body
contains a colon: object members require a quoted key. -/
theorem json_loads_brace_colon_none {Z : List Char} (hcolon : ':' ∈ Z)
    (hq : '"' ∉ Z) : json_loads ('{' :: Z) = none := by
  rcases hd : Z.dropWhile jsonWs with _ | ⟨d, T⟩
  · exfalso
    have h1 := mem_dropWhile_of_neg hcolon (show jsonWs ':' = false by decide)
    rw [hd] at h1
    cases h1
  · have hdmem : d ∈ Z := by
      have h1 : d ∈ Z.dropWhile jsonWs := by
        rw [hd]
        exact List.mem_cons_self _ _
      exact (List.dropWhile_sublist _).mem h1
    have hdq : d ≠ '"' := fun hE => hq (hE ▸ hdmem)
    have hdws : jsonWs d = false := head_dropWhile_neg hd
    have hmemb : ∀ fuel, parseMembers fuel (d :: T) = none := by
      intro fuel
      cases fuel with
      | zero => rfl
      | succ fuel2 =>
          have hdw2 : (d :: T).dropWhile jsonWs = d :: T :=
            List.dropWhile_cons_of_neg (by simp [hdws])
          rw [parseMembers]
          simp only [hdw2]
          rw [if_neg hdq]
    have hval : ∀ fuel, parseVal (fuel + 1) ('{' :: Z) = none ∨
        (d = '}' ∧ parseVal (fuel + 1) ('{' :: Z) = some (JVal.jobj [], T)) := by
      intro fuel
      have h0 : ('{' :: Z).dropWhile jsonWs = '{' :: Z :=
        List.dropWhile_cons_of_neg (by decide)
      by_cases hdb : d = '}'
      · right
        refine ⟨hdb, ?_⟩
        rw [parseVal]
        simp [h0, hd, hdb]
      · left
        rw [parseVal]
        simp [h0, hd, hdb, hmemb fuel]
    rcases hval (Z.length + 1) with hv | ⟨hdb, hv⟩
    · simp [json_loads, hv]
    · have hTne : ¬ (T.dropWhile jsonWs = []) := by
        intro hTnil
        have h5 : ':' ∈ d :: T := by
          rw [← hd]
          exact mem_dropWhile_of_neg hcolon (show jsonWs ':' = false by decide)
        have h6 : ':' ∈ T := by
          rcases List.mem_cons.mp h5 with h | h
          · rw [hdb] at h
            exact absurd h (by decide)
          · exact h
        have h7 := mem_dropWhile_of_neg h6 (show jsonWs ':' = false by decide)
        rw [hTnil] at h7
        cases h7
      simp [json_loads, hv, hTne]

/-- `json.dumps` never emits a raw newline: control characters are
escaped. -/
theorem escChar_no_nl (c : Char) : '\n' ∉ escChar c := by
  unfold escChar
  split_ifs with h1 h2 h3 h4 h5
  · decide
  · decide
  · decide
  · decide
  · decide
  · intro hm
    rw [List.mem_singleton] at hm
    exact h3 hm.symm

theorem escStr_no_nl (s : List Char) : '\n' ∉ escStr s := by
  induction s with
  | nil => simp [escStr]
  | cons c rest ih =>
      intro hm
      simp only [escStr, List.flatMap_cons] at hm
      rcases List.mem_append.mp hm with h | h
      · exact escChar_no_nl c h
      · exact ih h

theorem dumpsMember_no_nl (m : List Char × List Char) :
    '\n' ∉ dumpsMember m := by
  have h1 := escStr_no_nl m.1
  have h2 := escStr_no_nl m.2
  intro h
  unfold dumpsMember at h
  simp [h1, h2] at h

theorem dumpsMembers_no_nl : ∀ ms : List (List Char × List Char),
    '\n' ∉ dumpsMembers ms := by
  intro ms
  induction ms with
  | nil => simp [dumpsMembers]
  | cons m rest ih =>
      cases rest with
      | nil => exact dumpsMember_no_nl m
      | cons m2 rest2 =>
          intro h
          have hshape : dumpsMembers (m :: m2 :: rest2) =
              dumpsMember m ++ ',' :: ' ' :: dumpsMembers (m2 :: rest2) := by
            simp [dumpsMembers]
          rw [hshape] at h
          simp [dumpsMember_no_nl m, ih] at h

theorem dumps_flat_no_nl (ms : List (List Char × List Char)) :
    '\n' ∉ dumps_flat ms := by
  intro h
  unfold dumps_flat at h
  simp [dumpsMembers_no_nl ms] at h

/-- Claim C6 as amended: extraction is *not* idempotent — re-running
extraction on the compact JSON re-serialization of any successfully
extracted record fails (`is_valid = False`).  First conjunct:
`eval_json` rejects *every* newline-free input, because `fix_json`
strips all double quotes and its re-quoting pass fires only on
newline-terminated members, leaving a quote-free object body (still
containing the colon the fragment pattern guarantees) that
`json.loads` rejects.  Second conjunct: a compact `json.dumps`
serialization never contains a raw newline (control characters are
escaped).  Together: for every text, key and record the claim ranges
over, re-extraction returns `is_valid = False` instead of the same
record. -/
theorem C6_reextraction_always_fails :
    (∀ text key : List Char, '\n' ∉ text → eval_json text key = false) ∧
    (∀ ms : List (List Char × List Char), '\n' ∉ dumps_flat ms) := by
  constructor
  · intro text key hnl
    cases hff : findFrag key text with
    | none => simp [eval_json, hff]
    | some frag =>
        obtain ⟨b0, btail, hshape, hmem, hscan⟩ := findFrag_some_shape hff
        have hcolon : ':' ∈ b0 :: btail :=
          List.mem_cons_of_mem _ (scanKeyColon_colon hscan)
        have hfnl : '\n' ∉ '{' :: (b0 :: btail) ++ ['}'] := by
          intro hm
          rcases List.mem_cons.mp hm with h | h
          · exact absurd h (by decide)
          rcases List.mem_append.mp h with h | h
          · exact hnl (hmem _ h)
          · rw [List.mem_singleton] at h
            exact absurd h (by decide)
        obtain ⟨Z, hfix, hcZ, hqZ⟩ := fix_json_of_frag hfnl hcolon
        have heq : eval_json text key =
            (json_loads (fix_json frag)).isSome := by
          simp [eval_json, hff]
        rw [heq, hshape, hfix, json_loads_brace_colon_none hcZ hqZ]
        rfl
  · exact dumps_flat_no_nl

/-- Witness for `C6_reextraction_always_fails` at the record extracted
in the counterexample: its compact serialization is rejected. -/
theorem C6_witness :
    eval_json (dumps_flat exC6Record) "confidence".toList = false :=
  C6_reextraction_always_fails.1 (dumps_flat exC6Record)
    ("confidence".toList) (by decide)

end SherlockClaude
